import Mathlib

/-!
Verification of the ProcessorSimulator back end against its specification.

The definitions below are a shallow embedding of the Python sources:
`procsim/back_end/reservation_station.py`, `procsim/front_end/decode.py`,
`procsim/clock.py` and `procsim/clocked.py`.  Pure methods become Lean
functions; the mutable component state becomes explicit record passing; the
Python `assert` statements and uncaught exceptions become `Except` errors.
Where a collaborating class is absent from the sources (the `Instruction`
base class, the execution units, `Result`), its interface is modelled from
the specification and the modelling note is given in the doc comment.
-/

deriving instance DecidableEq for Except

namespace ProcSim

/-- Capabilities are the Python classes that `ExecutionUnit.capability()`
returns and that `inspect.getmro` enumerates.  They are opaque identifiers
here, modelled as naturals. -/
abbrev Cap := Nat

/-- Modelled from the spec: `procsim/back_end/result.py` is not under src/.
A Result is a `(tag, value)` pair broadcast on the bus. -/
structure Result where
  tag : Nat
  value : Int
deriving DecidableEq

/-- Modelled from the spec: the operand model of the missing
`procsim/instructions/instruction.py`.  An Operand is either a literal value
or a pending tag, and becomes a value upon receipt of a matching Result. -/
inductive Operand where
  | value (v : Int)
  | pending (t : Nat)
deriving DecidableEq

/-- True when the operand holds a literal value. -/
def Operand.isValue : Operand → Bool
  | .value _ => true
  | .pending _ => false

/-- Operand-fill logic: a pending operand whose tag matches the Result is
replaced by the Result's value; all other operands are unchanged. -/
def Operand.fill (r : Result) : Operand → Operand
  | .pending t => if t = r.tag then .value r.value else .pending t
  | .value v => .value v

/-- Modelled from the spec: the back-end instruction object fed into the
ReservationStation.  The `Instruction` base class is not under src/; per the
spec an instruction carries its operands (literal or pending) and, for
capability matching, its method-resolution order `mro` (most specific class
first) as walked by `inspect.getmro` in `ReservationStation.operate`. -/
structure Instr where
  operands : List Operand
  mro : List Cap
deriving DecidableEq

/-- Modelled from the spec: `can_dispatch()` is true when all operands are
filled. -/
def Instr.canDispatch (i : Instr) : Bool :=
  i.operands.all Operand.isValue

/-- Modelled from the spec: `Instruction.receive(result)` fills every
matching pending operand with the Result's value. -/
def Instr.receive (i : Instr) (r : Result) : Instr :=
  { i with operands := i.operands.map (Operand.fill r) }

/-- Modelled from the spec: a single-slot execution unit.  `busy` is the
"currently executing" flag read by `full()`; `cap` is the value of
`capability()` under which `ReservationStation.register` records the unit;
`log` records every instruction ever passed to `feed`, newest last, so that
dispatches are observable in the embedding. -/
structure ExecUnit where
  cap : Cap
  busy : Bool
  log : List Instr
deriving DecidableEq

/-- Modelled from the spec: `full()` of a single-slot unit is true iff it is
currently executing. -/
def ExecUnit.full (u : ExecUnit) : Bool := u.busy

/-- Modelled from the spec: `feed(instruction)` loads the instruction into
the single slot; the unit is busy afterwards. -/
def ExecUnit.feed (u : ExecUnit) (i : Instr) : ExecUnit :=
  { u with busy := true, log := u.log ++ [i] }

/-- Modelled from the spec: a flush erases the in-flight instruction of an
execution unit. -/
def ExecUnit.flush (u : ExecUnit) : ExecUnit :=
  { u with busy := false }

/-- State of `ReservationStation` (reservation_station.py).  The Python
`execution_units` is a `defaultdict` from capability to the set of units
registered under it; every registered unit carries its own capability, so a
single list in registration order is an equivalent encoding (lookup under a
capability filters the list).  The set iteration of
`next(iter(idle))` is arbitrary-but-deterministic; the embedding realises it
as first-in-registration-order. -/
structure ReservationStation where
  CAPACITY : Nat
  width : Nat
  execution_units : List ExecUnit
  current_buffer : List Instr
  future_buffer : List Instr
deriving DecidableEq

/-- Method `ReservationStation.feed`: asserts the future buffer is below capacity,
then appends the instruction to the future buffer. -/
def ReservationStation.feed (s : ReservationStation) (i : Instr) :
    Except String ReservationStation :=
  if s.future_buffer.length < s.CAPACITY then
    .ok { s with future_buffer := s.future_buffer ++ [i] }
  else
    .error "ReservationStation fed when full"

/-- Method `ReservationStation.full`: true iff the future buffer size equals the
capacity. -/
def ReservationStation.full (s : ReservationStation) : Bool :=
  s.future_buffer.length == s.CAPACITY

/-- Method `ReservationStation.register`: record the unit under its capability. -/
def ReservationStation.register (s : ReservationStation) (u : ExecUnit) :
    ReservationStation :=
  { s with execution_units := s.execution_units ++ [u] }

/-- Method `ReservationStation.receive`: deliver the Result to every instruction in
the future buffer. -/
def ReservationStation.receive (s : ReservationStation) (r : Result) :
    ReservationStation :=
  { s with future_buffer := s.future_buffer.map (fun i => i.receive r) }

/-- Method `ReservationStation.flush`: clear both buffers and flush every
registered execution unit. -/
def ReservationStation.flush (s : ReservationStation) : ReservationStation :=
  { s with current_buffer := [], future_buffer := [],
           execution_units := s.execution_units.map ExecUnit.flush }

/-- Method `ReservationStation.trigger`: promote the future buffer to current and
reinitialise the future buffer as a copy of it. -/
def ReservationStation.trigger (s : ReservationStation) : ReservationStation :=
  { s with current_buffer := s.future_buffer, future_buffer := s.future_buffer }

/-- Nonempty test on `units` for a capability: the truthiness test
`exist = exist or units` in `operate`. -/
def unitsExist (c : Cap) (us : List ExecUnit) : Bool :=
  us.any (fun u => u.cap == c)

/-- Feed the instruction into the first registered non-full unit of the
given capability, if any; the Python `idle = ...; next(iter(idle))` choice
from the set, realised in registration order. -/
def feedFirstIdle (c : Cap) (x : Instr) : List ExecUnit → Option (List ExecUnit)
  | [] => none
  | u :: rest =>
      if u.cap == c && !u.full then some (u.feed x :: rest)
      else (feedFirstIdle c x rest).map (fun l => u :: l)

/-- The inner `for cap in inspect.getmro(type(instruction))` loop of
`operate`: walk the capability list, accumulating the `exist` flag
(some capability has registered units) and stopping at the first capability
with an idle unit, feeding the instruction into it. -/
def tryCaps (x : Instr) (us : List ExecUnit) :
    List Cap → Bool → Bool × Option (List ExecUnit)
  | [], exist => (exist, none)
  | c :: cs, exist =>
      match feedFirstIdle c x us with
      | some us2 => (exist || unitsExist c us, some us2)
      | none => tryCaps x us cs (exist || unitsExist c us)

/-- Python `del l[n]`: deletes the element at index `n`, raising IndexError
when out of range. -/
def pyDelete (l : List α) (n : Nat) : Except String (List α) :=
  if n < l.length then .ok (l.eraseIdx n) else .error "IndexError"

/-- The `for i, instruction in enumerate(self.current_buffer)` loop of
`ReservationStation.operate`: `i` is the enumerate index, `nd` the running
`n_dispatch` count, `us` the current execution-unit states and `fut` the
future buffer being pruned by `del self.future_buffer[i - n_dispatch]`. -/
def operateGo (width : Nat) (insts : List Instr) (i nd : Nat)
    (us : List ExecUnit) (fut : List Instr) :
    Except String (List ExecUnit × List Instr) :=
  match insts with
  | [] => .ok (us, fut)
  | inst :: rest =>
      if nd == width then .ok (us, fut)
      else if !inst.canDispatch then operateGo width rest (i + 1) nd us fut
      else
        match tryCaps inst us inst.mro false with
        | (_, some us2) =>
            match pyDelete fut (i - nd) with
            | .error e => .error e
            | .ok fut2 => operateGo width rest (i + 1) (nd + 1) us2 fut2
        | (exist, none) =>
            if exist then operateGo width rest (i + 1) nd us fut
            else .error "Instruction has no ExecutionUnit"

/-- Method `ReservationStation.operate`: issue fed instructions from the current
buffer to capable non-full execution units, deleting each issued instruction
from the future buffer; the AssertionError of a dispatchable instruction
with no capable unit becomes an error value. -/
def ReservationStation.operate (s : ReservationStation) :
    Except String ReservationStation :=
  match operateGo s.width s.current_buffer 0 0 s.execution_units s.future_buffer with
  | .error e => .error e
  | .ok (us, fut) => .ok { s with execution_units := us, future_buffer := fut }

/-- Method `tick` of a Clocked component: `operate()` then `trigger()`. -/
def ReservationStation.tick (s : ReservationStation) :
    Except String ReservationStation :=
  match s.operate with
  | .error e => .error e
  | .ok s2 => .ok s2.trigger

/-- Feed a list of instructions one after the other. -/
def feedAll (s : ReservationStation) : List Instr → Except String ReservationStation
  | [] => .ok s
  | x :: rest =>
      match s.feed x with
      | .error e => .error e
      | .ok s2 => feedAll s2 rest

/-- The dispatch algorithm in the specification's words: iterate the current
buffer in insertion order; stop at `width` issues or end of buffer; skip
entries with unfilled operands; for each candidate walk its capability
hierarchy from most specific to most general and, at the first capability
having a non-full registered unit, feed the instruction into that unit and
record the instruction's buffer position (so that exactly that instruction
is removed from the future buffer); a candidate with registered units but
none idle is left in place; a candidate with no registered unit under any
capability is a no-capable-unit error.  Returns the updated units and the
positions (relative to position `i` of the first instruction) of the
dispatched instructions, in dispatch order. -/
def dispatchSpec (width : Nat) (insts : List Instr) (i nd : Nat)
    (us : List ExecUnit) : Except String (List ExecUnit × List Nat) :=
  match insts with
  | [] => .ok (us, [])
  | inst :: rest =>
      if nd == width then .ok (us, [])
      else if !inst.canDispatch then dispatchSpec width rest (i + 1) nd us
      else
        match tryCaps inst us inst.mro false with
        | (_, some us2) =>
            match dispatchSpec width rest (i + 1) (nd + 1) us2 with
            | .error e => .error e
            | .ok (usF, idxs) => .ok (usF, i :: idxs)
        | (exist, none) =>
            if exist then dispatchSpec width rest (i + 1) nd us
            else .error "Instruction has no ExecutionUnit"

/-- Remove from `l` the elements whose position (counting from `i`) occurs
in `idxs`. -/
def removeIdxsFrom (i : Nat) (idxs : List Nat) : List Instr → List Instr
  | [] => []
  | x :: rest =>
      if idxs.contains i then removeIdxsFrom (i + 1) idxs rest
      else x :: removeIdxsFrom (i + 1) idxs rest

/-- Total number of instructions ever fed into the given units. -/
def totalDispatched (us : List ExecUnit) : Nat :=
  (us.map (fun u => u.log.length)).sum

/-- Modelled from the spec: `procsim/branch/branch_info.py` is not under
src/.  Decode treats the branch info as an opaque value attached to a
decoded `blth`. -/
structure BranchInfo where
  predicted_taken : Bool
  predicted_target : Int
deriving DecidableEq

/-- The dictionary fed to the Decode stage: it carries at least the
`instruction_str` key; the `branch_info` key may be absent (`none`). -/
structure InstrDict where
  instruction_str : String
  branch_info : Option BranchInfo
deriving DecidableEq

/-- The decoded front-end instruction: one constructor per entry of the
`gen_ins` lookup table of `_decode` (decode.py).  A decoded `blth`
additionally carries the `branch_info` value assigned by `_decode`. -/
inductive FrontIns where
  | Add (rd r1 r2 : String)
  | AddI (rd r1 : String) (imm : Int)
  | Sub (rd r1 r2 : String)
  | SubI (rd r1 : String) (imm : Int)
  | Mul (rd r1 r2 : String)
  | MulI (rd r1 : String) (imm : Int)
  | Load (rd r1 : String)
  | Store (r1 r2 : String)
  | Jump (imm : Int)
  | Blth (r1 r2 : String) (imm : Int) (info : BranchInfo)
deriving DecidableEq

/-- The mnemonic that produces each decoded instruction. -/
def FrontIns.mnemonic : FrontIns → String
  | .Add _ _ _ => "add"
  | .AddI _ _ _ => "addi"
  | .Sub _ _ _ => "sub"
  | .SubI _ _ _ => "subi"
  | .Mul _ _ _ => "mul"
  | .MulI _ _ _ => "muli"
  | .Load _ _ => "ldr"
  | .Store _ _ => "str"
  | .Jump _ => "j"
  | .Blth _ _ _ _ => "blth"

/-- Python `s.split(' ')` on the character list: consecutive separators
yield empty tokens and the empty string yields one empty token. -/
def splitAux : List Char → List (List Char)
  | [] => [[]]
  | c :: cs =>
      let r := splitAux cs
      if c = ' ' then [] :: r
      else
        match r with
        | [] => [[c]]
        | f :: rest => (c :: f) :: rest

/-- Python `s.split(' ')`. -/
def pySplit (s : String) : List String :=
  (splitAux s.data).map (fun l => ⟨l⟩)

/-- Numeric value of a digit list. -/
def digitsVal (cs : List Char) : Nat :=
  cs.foldl (fun n c => 10 * n + (c.toNat - 48)) 0

/-- Python `int(s)` restricted to the space-free tokens produced by
`split(' ')`: an optional sign followed by a nonempty run of digits parses;
everything this model accepts, Python's `int` accepts with the same value. -/
def pyInt (s : String) : Option Int :=
  match s.data with
  | [] => none
  | '-' :: rest =>
      if rest.isEmpty then none
      else if rest.all Char.isDigit then some (-(digitsVal rest : Int)) else none
  | '+' :: rest =>
      if rest.isEmpty then none
      else if rest.all Char.isDigit then some (digitsVal rest : Int) else none
  | cs => if cs.all Char.isDigit then some (digitsVal cs : Int) else none

/-- Function `_decode` (decode.py): split the instruction string on spaces, look the
mnemonic up in the `gen_ins` table and build the decoded instruction from
the remaining fields; for `blth`, additionally read the dictionary's
`branch_info`.  Every exception of the Python body (unknown mnemonic,
missing operand, non-integer immediate, missing `branch_info`) is caught by
the bare `except:` and re-raised as the single ValueError, embedded here as
the single error value. -/
def decodeStr (d : InstrDict) : Except String FrontIns :=
  let fields := pySplit d.instruction_str
  let m := fields.headD ""
  let args := fields.tail
  let res : Option FrontIns :=
    if m = "add" then do
      let a ← args.get? 0; let b ← args.get? 1; let c ← args.get? 2
      some (.Add a b c)
    else if m = "addi" then do
      let a ← args.get? 0; let b ← args.get? 1; let t ← args.get? 2
      let n ← pyInt t; some (.AddI a b n)
    else if m = "sub" then do
      let a ← args.get? 0; let b ← args.get? 1; let c ← args.get? 2
      some (.Sub a b c)
    else if m = "subi" then do
      let a ← args.get? 0; let b ← args.get? 1; let t ← args.get? 2
      let n ← pyInt t; some (.SubI a b n)
    else if m = "mul" then do
      let a ← args.get? 0; let b ← args.get? 1; let c ← args.get? 2
      some (.Mul a b c)
    else if m = "muli" then do
      let a ← args.get? 0; let b ← args.get? 1; let t ← args.get? 2
      let n ← pyInt t; some (.MulI a b n)
    else if m = "ldr" then do
      let a ← args.get? 0; let b ← args.get? 1
      some (.Load a b)
    else if m = "str" then do
      let a ← args.get? 0; let b ← args.get? 1
      some (.Store a b)
    else if m = "j" then do
      let t ← args.get? 0; let n ← pyInt t
      some (.Jump n)
    else if m = "blth" then do
      let a ← args.get? 0; let b ← args.get? 1; let t ← args.get? 2
      let n ← pyInt t; let bi ← d.branch_info
      some (.Blth a b n bi)
    else none
  match res with
  | some x => .ok x
  | none => .error "unknown instruction"

/-- The ten mnemonics recognised by the `gen_ins` table of `_decode`. -/
def recognizedMnemonics : List String :=
  ["add", "addi", "sub", "subi", "mul", "muli", "ldr", "str", "j", "blth"]

/-- A dictionary is well formed when its instruction string splits into one
of the ten listed operand shapes, with immediates that parse as integers
and, for `blth` (whose decoded instruction carries the branch info per the
spec's external interface), a present `branch_info`. -/
inductive WellFormedDict : InstrDict → Prop where
  | add (d : InstrDict) (rd r1 r2 : String)
      (h : pySplit d.instruction_str = ["add", rd, r1, r2]) : WellFormedDict d
  | addi (d : InstrDict) (rd r1 t : String)
      (h : pySplit d.instruction_str = ["addi", rd, r1, t])
      (hn : (pyInt t).isSome) : WellFormedDict d
  | sub (d : InstrDict) (rd r1 r2 : String)
      (h : pySplit d.instruction_str = ["sub", rd, r1, r2]) : WellFormedDict d
  | subi (d : InstrDict) (rd r1 t : String)
      (h : pySplit d.instruction_str = ["subi", rd, r1, t])
      (hn : (pyInt t).isSome) : WellFormedDict d
  | mul (d : InstrDict) (rd r1 r2 : String)
      (h : pySplit d.instruction_str = ["mul", rd, r1, r2]) : WellFormedDict d
  | muli (d : InstrDict) (rd r1 t : String)
      (h : pySplit d.instruction_str = ["muli", rd, r1, t])
      (hn : (pyInt t).isSome) : WellFormedDict d
  | ldr (d : InstrDict) (rd r1 : String)
      (h : pySplit d.instruction_str = ["ldr", rd, r1]) : WellFormedDict d
  | str (d : InstrDict) (r1 r2 : String)
      (h : pySplit d.instruction_str = ["str", r1, r2]) : WellFormedDict d
  | j (d : InstrDict) (t : String)
      (h : pySplit d.instruction_str = ["j", t])
      (hn : (pyInt t).isSome) : WellFormedDict d
  | blth (d : InstrDict) (r1 r2 t : String)
      (h : pySplit d.instruction_str = ["blth", r1, r2, t])
      (hn : (pyInt t).isSome)
      (hb : d.branch_info.isSome) : WellFormedDict d

/-- State of the `Decode` stage (decode.py): the held instruction
dictionary and delay timer, on both the current and the future side. -/
structure Decode where
  DELAY : Nat
  current_inst : Option InstrDict
  current_timer : Nat
  future_inst : Option InstrDict
  future_timer : Nat
deriving DecidableEq

/-- Method `Decode.feed`: asserts the future slot is empty, then stages the
dictionary with timer `max(0, DELAY - 1)`. -/
def Decode.feed (s : Decode) (d : InstrDict) : Except String Decode :=
  match s.future_inst with
  | some _ => .error "Decode fed when full"
  | none => .ok { s with future_inst := some d, future_timer := s.DELAY - 1 }

/-- Method `Decode.full`: true iff the future slot is occupied. -/
def Decode.full (s : Decode) : Bool :=
  s.future_inst.isSome

/-- Method `Decode.trigger`: promote the future slot to current; the future slot
keeps the instruction with a decremented timer while the timer is nonzero,
and empties otherwise. -/
def Decode.trigger (s : Decode) : Decode :=
  let ci := s.future_inst
  let ct := s.future_timer
  if ci.isNone || ct == 0 then
    { s with current_inst := ci, current_timer := ct,
             future_inst := none, future_timer := 0 }
  else
    { s with current_inst := ci, current_timer := ct,
             future_inst := ci, future_timer := ct - 1 }

/-- Modelled from the spec: the conversion of a decoded front-end
instruction into the back-end instruction object that Decode feeds into the
ReservationStation (the front-end instruction classes are not under src/).
Per the spec's data model the object enters the back end carrying its
operand list and its capability hierarchy; the concrete encoding below
(empty operand list, a kind capability above the base capability `0`) is
one admissible instance and no theorem depends on its details. -/
def frontToInstr (f : FrontIns) : Instr :=
  match f with
  | .Load _ _ | .Store _ _ => { operands := [], mro := [1, 0] }
  | .Jump _ | .Blth _ _ _ _ => { operands := [], mro := [2, 0] }
  | _ => { operands := [], mro := [3, 0] }

/-- Method `Decode.operate`: when an instruction is held, its timer has expired and
the downstream ReservationStation is not full, decode it and feed the
result into the ReservationStation; otherwise do nothing.  The Decode
stage's own state is not modified by `operate`. -/
def Decode.operate (s : Decode) (rs : ReservationStation) :
    Except String ReservationStation :=
  match s.current_inst with
  | none => .ok rs
  | some d =>
      if s.current_timer == 0 && !rs.full then
        match decodeStr d with
        | .error e => .error e
        | .ok f => rs.feed (frontToInstr f)
      else .ok rs

/-- A two-component system registered with the Clock: a Decode stage wired
to a ReservationStation, as in the pipeline front end. -/
structure World where
  dec : Decode
  rs : ReservationStation
deriving DecidableEq

/-- The two registered Tickables of the world. -/
inductive Comp where
  | dec
  | rs
deriving DecidableEq

/-- Method `tick()` of one registered component: `operate()` then `trigger()`
(clocked.py). -/
def compTick (w : World) : Comp → Except String World
  | .dec =>
      match w.dec.operate w.rs with
      | .error e => .error e
      | .ok rs2 => .ok { dec := w.dec.trigger, rs := rs2 }
  | .rs =>
      match w.rs.operate with
      | .error e => .error e
      | .ok s2 => .ok { w with rs := s2.trigger }

/-- Method `Clock.tick` (clock.py): call `tick()` on every registered component in
the given order. -/
def clockTick (order : List Comp) (w : World) : Except String World :=
  match order with
  | [] => .ok w
  | c :: rest =>
      match compTick w c with
      | .error e => .error e
      | .ok w2 => clockTick rest w2

/-- A ready instruction of the base ALU kind, used in concrete scenarios. -/
def J0 : Instr := { operands := [Operand.value 7], mro := [3, 0] }

/-- An idle ALU execution unit, used in concrete scenarios. -/
def u0 : ExecUnit := { cap := 3, busy := false, log := [] }

/-- A capacity-1 ReservationStation holding one ready instruction on both
buffer sides (the between-cycles state after it was fed and latched). -/
def rs0 : ReservationStation :=
  { CAPACITY := 1, width := 1, execution_units := [u0],
    current_buffer := [J0], future_buffer := [J0] }

/-- A decodable instruction dictionary. -/
def d0 : InstrDict := { instruction_str := "add r1 r2 r3", branch_info := none }

/-- A Decode stage holding `d0` with an expired delay timer. -/
def dec0 : Decode :=
  { DELAY := 1, current_inst := some d0, current_timer := 0,
    future_inst := none, future_timer := 0 }

/-- The concrete two-component world exercising the Clock's ordering. -/
def w0 : World := { dec := dec0, rs := rs0 }

/-- An empty ReservationStation of capacity 2, used in witnesses. -/
def rsE : ReservationStation :=
  { CAPACITY := 2, width := 4, execution_units := [],
    current_buffer := [], future_buffer := [] }

lemma feedAll_ok (l : List Instr) : ∀ s : ReservationStation,
    s.future_buffer.length + l.length ≤ s.CAPACITY →
    feedAll s l = .ok { s with future_buffer := s.future_buffer ++ l } := by
  induction l with
  | nil => intro s h; simp [feedAll]
  | cons x rest ih =>
      intro s h
      have hlt : s.future_buffer.length < s.CAPACITY := by
        simp only [List.length_cons] at h; omega
      have step : feedAll s (x :: rest)
          = feedAll { s with future_buffer := s.future_buffer ++ [x] } rest := by
        rw [feedAll, ReservationStation.feed, if_pos hlt]
      rw [step, ih { s with future_buffer := s.future_buffer ++ [x] }
        (by simp only [List.length_append, List.length_cons, List.length_nil,
              List.length_cons] at h ⊢; omega)]
      simp

/-- C4.  Feeding a ReservationStation of capacity `C` exactly `C` times
from an empty future buffer makes `full()` true and one further `feed()`
fail with the assertion error; any station with fewer than `CAPACITY`
staged instructions is not full and a `feed()` succeeds, appending the
instruction to the future buffer. -/
theorem feed_capacity_boundary (s t : ReservationStation) (l : List Instr)
    (x : Instr) (hemp : s.future_buffer = []) (hlen : l.length = s.CAPACITY)
    (ht : t.future_buffer.length < t.CAPACITY) :
    (∃ s1, feedAll s l = .ok s1 ∧ s1.future_buffer = l ∧ s1.full = true ∧
      s1.feed x = .error "ReservationStation fed when full") ∧
    t.full = false ∧
    t.feed x = .ok { t with future_buffer := t.future_buffer ++ [x] } := by
  refine ⟨⟨{ s with future_buffer := s.future_buffer ++ l }, ?_, ?_, ?_, ?_⟩, ?_, ?_⟩
  · exact feedAll_ok l s (by rw [hemp]; simpa using le_of_eq hlen)
  · simp [hemp]
  · simp [ReservationStation.full, hemp, hlen]
  · simp [ReservationStation.feed, hemp, hlen]
  · simp only [ReservationStation.full, beq_eq_false_iff_ne, ne_eq]
    omega
  · rw [ReservationStation.feed, if_pos ht]

/-- Closed witness for `feed_capacity_boundary` at a concrete station. -/
theorem feed_capacity_boundary_witness :
    (∃ s1, feedAll rsE [J0, J0] = .ok s1 ∧ s1.future_buffer = [J0, J0] ∧
      s1.full = true ∧
      s1.feed J0 = .error "ReservationStation fed when full") ∧
    rsE.full = false ∧
    rsE.feed J0 = .ok { rsE with future_buffer := rsE.future_buffer ++ [J0] } :=
  feed_capacity_boundary rsE rsE [J0, J0] J0 (by decide) (by decide) (by decide)

/-- C6.  `flush()` empties both buffers, flushes every registered execution
unit (none is busy afterwards), and is idempotent. -/
theorem flush_clears_and_idempotent (s : ReservationStation) :
    s.flush.current_buffer = [] ∧ s.flush.future_buffer = [] ∧
    s.flush.execution_units = s.execution_units.map ExecUnit.flush ∧
    s.flush.execution_units.all (fun u => !u.busy) = true ∧
    s.flush.flush = s.flush := by
  refine ⟨rfl, rfl, rfl, ?_, ?_⟩
  · simp [ReservationStation.flush, List.all_map, Function.comp, ExecUnit.flush]
  · simp [ReservationStation.flush, List.map_map, Function.comp, ExecUnit.flush]

/-- C7.  `receive(result)` maps the operand-fill over every staged
instruction: the future buffer afterwards is exactly the pointwise
`Instruction.receive` image, the latch (`trigger`) promotes that image into
the current buffer, a pending operand carrying the Result's tag fills with
the Result's value, and no staged instruction retains a pending operand
with that tag. -/
theorem receive_distributes (s : ReservationStation) (r : Result) (i : Instr)
    (o : Operand) (hi : i ∈ (s.receive r).future_buffer)
    (ho : o ∈ i.operands) :
    (s.receive r).future_buffer = s.future_buffer.map (fun j => j.receive r) ∧
    ((s.receive r).trigger).current_buffer
      = s.future_buffer.map (fun j => j.receive r) ∧
    Operand.fill r (Operand.pending r.tag) = Operand.value r.value ∧
    o ≠ Operand.pending r.tag := by
  refine ⟨rfl, rfl, by simp [Operand.fill], ?_⟩
  simp only [ReservationStation.receive, List.mem_map] at hi
  obtain ⟨j, hj, rfl⟩ := hi
  simp only [Instr.receive, List.mem_map] at ho
  obtain ⟨o2, ho2, rfl⟩ := ho
  cases o2 with
  | value v => simp [Operand.fill]
  | pending t =>
      by_cases htag : t = r.tag
      · simp [Operand.fill, htag]
      · simp [Operand.fill, htag]

/-- A station staging one instruction with a pending operand, for the C7
witness. -/
def sW : ReservationStation :=
  { CAPACITY := 2, width := 4, execution_units := [],
    current_buffer := [],
    future_buffer := [{ operands := [Operand.pending 5], mro := [3, 0] }] }

/-- The Result broadcast in the C7 witness. -/
def rW : Result := { tag := 5, value := 42 }

/-- The filled instruction observed in the C7 witness. -/
def iW : Instr := { operands := [Operand.value 42], mro := [3, 0] }

/-- Closed witness for `receive_distributes` at a concrete station holding
one instruction with a matching pending operand. -/
theorem receive_distributes_witness :
    (sW.receive rW).future_buffer
      = sW.future_buffer.map (fun j => j.receive rW) ∧
    ((sW.receive rW).trigger).current_buffer
      = sW.future_buffer.map (fun j => j.receive rW) ∧
    Operand.fill rW (Operand.pending rW.tag) = Operand.value rW.value ∧
    Operand.value 42 ≠ Operand.pending rW.tag :=
  receive_distributes sW rW iW (Operand.value 42) (by decide) (by decide)

lemma feedFirstIdle_total (c : Cap) (x : Instr) :
    ∀ us us2, feedFirstIdle c x us = some us2 →
      totalDispatched us2 = totalDispatched us + 1 := by
  intro us
  induction us with
  | nil => intro us2 h; simp [feedFirstIdle] at h
  | cons u rest ih =>
      intro us2 h
      rw [feedFirstIdle] at h
      split at h
      · cases h
        simp only [totalDispatched, ExecUnit.feed, List.map_cons, List.sum_cons,
          List.length_append, List.length_cons, List.length_nil]
        omega
      · cases hrec : feedFirstIdle c x rest with
        | none => rw [hrec] at h; simp at h
        | some l =>
            rw [hrec] at h
            have h2 : some (u :: l) = some us2 := h
            cases h2
            have hl := ih l hrec
            simp only [totalDispatched] at hl
            simp only [totalDispatched, List.map_cons, List.sum_cons]
            omega

lemma tryCaps_total (x : Instr) (us : List ExecUnit) :
    ∀ caps b e us2, tryCaps x us caps b = (e, some us2) →
      totalDispatched us2 = totalDispatched us + 1 := by
  intro caps
  induction caps with
  | nil => intro b e us2 h; simp [tryCaps] at h
  | cons c cs ih =>
      intro b e us2 h
      rw [tryCaps] at h
      cases hf : feedFirstIdle c x us with
      | some l =>
          rw [hf] at h
          cases h
          exact feedFirstIdle_total c x us us2 hf
      | none =>
          rw [hf] at h
          exact ih _ _ _ h

lemma operateGo_total (width : Nat) :
    ∀ (insts : List Instr) (i nd : Nat) us fut us2 fut2,
      nd ≤ width →
      operateGo width insts i nd us fut = .ok (us2, fut2) →
      totalDispatched us2 ≤ totalDispatched us + (width - nd) := by
  intro insts
  induction insts with
  | nil =>
      intro i nd us fut us2 fut2 hnd h
      rw [operateGo] at h
      cases h
      omega
  | cons inst rest ih =>
      intro i nd us fut us2 fut2 hnd h
      rw [operateGo] at h
      by_cases hw : (nd == width) = true
      · rw [if_pos hw] at h
        cases h
        omega
      · rw [if_neg hw] at h
        have hlt : nd < width := by
          simp only [beq_iff_eq] at hw
          omega
        by_cases hc : (!inst.canDispatch) = true
        · rw [if_pos hc] at h
          exact ih _ _ _ _ _ _ hnd h
        · rw [if_neg hc] at h
          cases htc : tryCaps inst us inst.mro false with
          | mk exist uso =>
              rw [htc] at h
              cases uso with
              | some usM =>
                  simp only at h
                  cases hdel : pyDelete fut (i - nd) with
                  | error e => rw [hdel] at h; cases h
                  | ok fut2' =>
                      rw [hdel] at h
                      have h1 := ih _ _ _ _ _ _ (by omega) h
                      have h2 := tryCaps_total inst us inst.mro false exist usM htc
                      omega
              | none =>
                  simp only at h
                  by_cases hex : exist = true
                  · rw [if_pos hex] at h
                    exact ih _ _ _ _ _ _ hnd h
                  · rw [if_neg hex] at h
                    cases h

/-- C3.  A completed `operate()` feeds at most `width` instructions into
the registered execution units. -/
theorem operate_width_bound (s s2 : ReservationStation)
    (h : s.operate = .ok s2) :
    totalDispatched s2.execution_units
      ≤ totalDispatched s.execution_units + s.width := by
  rw [ReservationStation.operate] at h
  cases hgo : operateGo s.width s.current_buffer 0 0 s.execution_units
      s.future_buffer with
  | error e => rw [hgo] at h; cases h
  | ok p =>
      rw [hgo] at h
      cases h
      have := operateGo_total s.width s.current_buffer 0 0 s.execution_units
        s.future_buffer p.1 p.2 (Nat.zero_le _) (by rw [hgo])
      simpa using this

/-- The station `rs0` after one completed `operate()`. -/
def rs1 : ReservationStation :=
  { CAPACITY := 1, width := 1,
    execution_units := [{ cap := 3, busy := true, log := [J0] }],
    current_buffer := [J0], future_buffer := [] }

/-- Closed witness for `operate_width_bound` at the concrete station
`rs0`. -/
theorem operate_width_bound_witness :
    totalDispatched rs1.execution_units
      ≤ totalDispatched rs0.execution_units + rs0.width :=
  operate_width_bound rs0 rs1 (by decide)

lemma removeIdxsFrom_nil : ∀ (l : List Instr) (i : Nat),
    removeIdxsFrom i [] l = l := by
  intro l
  induction l with
  | nil => intro i; rfl
  | cons x rest ih =>
      intro i
      rw [removeIdxsFrom]
      simp [ih]

lemma removeIdxsFrom_lt (k : Nat) (idxs : List Nat) :
    ∀ (l : List Instr) (i : Nat), k < i →
      removeIdxsFrom i (k :: idxs) l = removeIdxsFrom i idxs l := by
  intro l
  induction l with
  | nil => intro i hki; rfl
  | cons x rest ih =>
      intro i hki
      rw [removeIdxsFrom, removeIdxsFrom]
      have hne : ((k :: idxs).contains i) = (idxs.contains i) := by
        simp only [List.contains_cons, Bool.or_eq_true]
        have : (i == k) = false := by
          simp only [beq_eq_false_iff_ne, ne_eq]
          omega
        simp [this]
      rw [hne, ih (i + 1) (by omega)]

lemma dispatchSpec_idxs_ge (width : Nat) :
    ∀ (insts : List Instr) (i nd : Nat) us usF idxs,
      dispatchSpec width insts i nd us = .ok (usF, idxs) →
      ∀ j ∈ idxs, i ≤ j := by
  intro insts
  induction insts with
  | nil =>
      intro i nd us usF idxs h j hj
      rw [dispatchSpec] at h
      cases h
      simp at hj
  | cons inst rest ih =>
      intro i nd us usF idxs h j hj
      rw [dispatchSpec] at h
      by_cases hw : (nd == width) = true
      · rw [if_pos hw] at h; cases h; simp at hj
      · rw [if_neg hw] at h
        by_cases hc : (!inst.canDispatch) = true
        · rw [if_pos hc] at h
          have := ih _ _ _ _ _ h j hj
          omega
        · rw [if_neg hc] at h
          cases htc : tryCaps inst us inst.mro false with
          | mk exist uso =>
              rw [htc] at h
              cases uso with
              | some usM =>
                  simp only at h
                  cases hds : dispatchSpec width rest (i + 1) (nd + 1) usM with
                  | error e => rw [hds] at h; cases h
                  | ok p =>
                      rw [hds] at h
                      simp only at h
                      cases h
                      simp only [List.mem_cons] at hj
                      rcases hj with rfl | hj
                      · omega
                      · have := ih _ _ _ _ _ (by rw [hds]) j hj
                        omega
              | none =>
                  simp only at h
                  by_cases hex : exist = true
                  · rw [if_pos hex] at h
                    have := ih _ _ _ _ _ h j hj
                    omega
                  · rw [if_neg hex] at h; cases h

lemma eraseIdx_at (x : Instr) (tail : List Instr) :
    ∀ keep : List Instr,
      (keep ++ x :: tail).eraseIdx keep.length = keep ++ tail := by
  intro keep
  induction keep with
  | nil => rfl
  | cons y rest ih =>
      simp only [List.cons_append, List.length_cons, List.eraseIdx_cons_succ]
      rw [ih]

lemma pyDelete_at (x : Instr) (tail keep : List Instr) :
    pyDelete (keep ++ x :: tail) keep.length = .ok (keep ++ tail) := by
  rw [pyDelete, if_pos (by simp), eraseIdx_at]

/-- The executable `operate` loop agrees with the specification's dispatch
algorithm: when the future buffer extends the current buffer (the state
every `operate()` call sees under the two-phase tick discipline, where the
extension `ext` holds the same-cycle feeds appended at the tail), the loop
returns exactly the units computed by `dispatchSpec` and the future buffer
with exactly the dispatched instructions removed from the current-buffer
prefix, the extension untouched. -/
lemma operateGo_eq_spec (width : Nat) (ext : List Instr) :
    ∀ (insts keep : List Instr) (i nd : Nat) (us : List ExecUnit),
      keep.length = i - nd → nd ≤ i →
      operateGo width insts i nd us (keep ++ insts ++ ext) =
        (match dispatchSpec width insts i nd us with
         | .error e => .error e
         | .ok p => .ok (p.1, keep ++ removeIdxsFrom i p.2 insts ++ ext)) := by
  intro insts
  induction insts with
  | nil =>
      intro keep i nd us hk hnd
      simp [operateGo, dispatchSpec, removeIdxsFrom]
  | cons inst rest ih =>
      intro keep i nd us hk hnd
      rw [operateGo, dispatchSpec]
      by_cases hw : (nd == width) = true
      · rw [if_pos hw, if_pos hw]
        simp only []
        rw [removeIdxsFrom_nil]
      · rw [if_neg hw, if_neg hw]
        by_cases hc : (!inst.canDispatch) = true
        · rw [if_pos hc, if_pos hc]
          have hassoc : keep ++ (inst :: rest) ++ ext
              = (keep ++ [inst]) ++ rest ++ ext := by simp
          rw [hassoc, ih (keep ++ [inst]) (i + 1) nd us
            (by simp only [List.length_append, List.length_cons,
                  List.length_nil]; omega)
            (by omega)]
          cases hds : dispatchSpec width rest (i + 1) nd us with
          | error e => rfl
          | ok p =>
              simp only []
              have hge := dispatchSpec_idxs_ge width rest (i + 1) nd us p.1 p.2
                (by rw [hds])
              have hnotmem : (p.2.contains i) = false := by
                cases hcon : p.2.contains i with
                | false => rfl
                | true =>
                    exfalso
                    have hmem : i ∈ p.2 := by simpa using hcon
                    have := hge i hmem
                    omega
              rw [removeIdxsFrom, hnotmem]
              simp
        · rw [if_neg hc, if_neg hc]
          cases htc : tryCaps inst us inst.mro false with
          | mk exist uso =>
              cases uso with
              | some usM =>
                  simp only []
                  have hdel : pyDelete (keep ++ (inst :: rest) ++ ext) (i - nd)
                      = .ok (keep ++ (rest ++ ext)) := by
                    have hform : keep ++ (inst :: rest) ++ ext
                        = keep ++ inst :: (rest ++ ext) := by simp
                    rw [hform, ← hk]
                    exact pyDelete_at inst (rest ++ ext) keep
                  rw [hdel]
                  simp only []
                  have hform2 : keep ++ (rest ++ ext) = keep ++ rest ++ ext := by
                    simp
                  rw [hform2, ih keep (i + 1) (nd + 1) usM (by omega) (by omega)]
                  cases hds : dispatchSpec width rest (i + 1) (nd + 1) usM with
                  | error e => rfl
                  | ok p =>
                      simp only []
                      have hcon : ((i :: p.2).contains i) = true := by
                        simp [List.contains_cons]
                      rw [removeIdxsFrom, hcon]
                      simp only [if_pos]
                      rw [removeIdxsFrom_lt i p.2 rest (i + 1) (by omega)]
              | none =>
                  simp only []
                  by_cases hex : exist = true
                  · rw [if_pos hex, if_pos hex]
                    have hassoc : keep ++ (inst :: rest) ++ ext
                        = (keep ++ [inst]) ++ rest ++ ext := by simp
                    rw [hassoc, ih (keep ++ [inst]) (i + 1) nd us
                      (by simp only [List.length_append, List.length_cons,
                            List.length_nil]; omega)
                      (by omega)]
                    cases hds : dispatchSpec width rest (i + 1) nd us with
                    | error e => rfl
                    | ok p =>
                        simp only []
                        have hge := dispatchSpec_idxs_ge width rest (i + 1) nd us
                          p.1 p.2 (by rw [hds])
                        have hnotmem : (p.2.contains i) = false := by
                          cases hcon : p.2.contains i with
                          | false => rfl
                          | true =>
                              exfalso
                              have hmem : i ∈ p.2 := by simpa using hcon
                              have := hge i hmem
                              omega
                        rw [removeIdxsFrom, hnotmem]
                        simp
                  · rw [if_neg hex, if_neg hex]

/-- Form of `operate()` in terms of the specification's dispatch scan, for any
station whose future buffer extends its current buffer by `ext`. -/
lemma operate_eq_spec (s : ReservationStation) (ext : List Instr)
    (h : s.future_buffer = s.current_buffer ++ ext) :
    s.operate =
      (match dispatchSpec s.width s.current_buffer 0 0 s.execution_units with
       | .error e => .error e
       | .ok p =>
           .ok { s with
                 execution_units := p.1,
                 future_buffer :=
                   removeIdxsFrom 0 p.2 s.current_buffer ++ ext }) := by
  rw [ReservationStation.operate, h]
  have hrw : s.current_buffer ++ ext = [] ++ s.current_buffer ++ ext := by simp
  rw [hrw, operateGo_eq_spec s.width ext s.current_buffer [] 0 0
    s.execution_units rfl (le_refl 0)]
  cases hds : dispatchSpec s.width s.current_buffer 0 0 s.execution_units with
  | error e => rfl
  | ok p => simp only []; simp

/-- C2.  Under the two-phase tick invariant (future buffer = current buffer
plus the same-cycle feeds `ext`), `operate()` computes exactly the
specification's dispatch scan: instructions are considered in insertion
order of the current buffer, so among eligible instructions the earlier in
program order dispatches first; undispatchable entries are skipped; each
candidate walks its capability hierarchy most specific first and is fed to
a non-full registered unit of the first capability that has one; exactly
the dispatched buffer positions are removed from the future buffer, the
feeds in `ext` untouched. -/
theorem operate_follows_spec (s : ReservationStation) (ext : List Instr)
    (h : s.future_buffer = s.current_buffer ++ ext) :
    s.operate =
      (match dispatchSpec s.width s.current_buffer 0 0 s.execution_units with
       | .error e => .error e
       | .ok p =>
           .ok { s with
                 execution_units := p.1,
                 future_buffer :=
                   removeIdxsFrom 0 p.2 s.current_buffer ++ ext }) :=
  operate_eq_spec s ext h

/-- Closed witness for `operate_follows_spec` at the concrete station
`rs0`. -/
theorem operate_follows_spec_witness :
    rs0.operate =
      (match dispatchSpec rs0.width rs0.current_buffer 0 0
          rs0.execution_units with
       | .error e => .error e
       | .ok p =>
           .ok { rs0 with
                 execution_units := p.1,
                 future_buffer :=
                   removeIdxsFrom 0 p.2 rs0.current_buffer ++ [] }) :=
  operate_follows_spec rs0 [] (by decide)

lemma feedFirstIdle_caps (c : Cap) (x : Instr) :
    ∀ us us2, feedFirstIdle c x us = some us2 →
      us2.map (fun u => u.cap) = us.map (fun u => u.cap) := by
  intro us
  induction us with
  | nil => intro us2 h; simp [feedFirstIdle] at h
  | cons u rest ih =>
      intro us2 h
      rw [feedFirstIdle] at h
      split at h
      · cases h
        simp [ExecUnit.feed]
      · cases hrec : feedFirstIdle c x rest with
        | none => rw [hrec] at h; simp at h
        | some l =>
            rw [hrec] at h
            have h2 : some (u :: l) = some us2 := h
            cases h2
            simp [ih l hrec]

lemma tryCaps_caps (x : Instr) (us : List ExecUnit) :
    ∀ caps b e us2, tryCaps x us caps b = (e, some us2) →
      us2.map (fun u => u.cap) = us.map (fun u => u.cap) := by
  intro caps
  induction caps with
  | nil => intro b e us2 h; simp [tryCaps] at h
  | cons c cs ih =>
      intro b e us2 h
      rw [tryCaps] at h
      cases hf : feedFirstIdle c x us with
      | some l =>
          rw [hf] at h
          cases h
          exact feedFirstIdle_caps c x us us2 hf
      | none =>
          rw [hf] at h
          exact ih _ _ _ h

lemma unitsExist_eq (c : Cap) : ∀ us : List ExecUnit,
    unitsExist c us = (us.map (fun u => u.cap)).any (fun d => d == c) := by
  intro us
  induction us with
  | nil => rfl
  | cons u rest ih =>
      simp only [unitsExist, List.map_cons, List.any_cons]
      rw [← ih]
      rfl

lemma unitsExist_of_caps {us us2 : List ExecUnit}
    (h : us2.map (fun u => u.cap) = us.map (fun u => u.cap)) (c : Cap) :
    unitsExist c us2 = unitsExist c us := by
  rw [unitsExist_eq, unitsExist_eq, h]

lemma tryCaps_none_exist (x : Instr) (us : List ExecUnit) :
    ∀ caps b e, tryCaps x us caps b = (e, none) →
      e = (b || caps.any (fun c => unitsExist c us)) := by
  intro caps
  induction caps with
  | nil =>
      intro b e h
      rw [tryCaps] at h
      cases h
      simp
  | cons c cs ih =>
      intro b e h
      rw [tryCaps] at h
      cases hf : feedFirstIdle c x us with
      | some l => rw [hf] at h; simp at h
      | none =>
          rw [hf] at h
          have := ih _ _ h
          simp only [List.any_cons]
          rw [this, Bool.or_assoc]

lemma dispatchSpec_ok_of_capable (width : Nat) :
    ∀ (insts : List Instr) (i nd : Nat) (us : List ExecUnit),
      (∀ x ∈ insts, x.canDispatch = true →
        ∃ c ∈ x.mro, unitsExist c us = true) →
      ∃ r, dispatchSpec width insts i nd us = .ok r := by
  intro insts
  induction insts with
  | nil => intro i nd us hcap; exact ⟨(us, []), by rw [dispatchSpec]⟩
  | cons inst rest ih =>
      intro i nd us hcap
      rw [dispatchSpec]
      by_cases hw : (nd == width) = true
      · rw [if_pos hw]; exact ⟨(us, []), rfl⟩
      · rw [if_neg hw]
        by_cases hc : (!inst.canDispatch) = true
        · rw [if_pos hc]
          exact ih (i + 1) nd us (fun x hx => hcap x (List.mem_cons_of_mem _ hx))
        · rw [if_neg hc]
          cases htc : tryCaps inst us inst.mro false with
          | mk exist uso =>
              cases uso with
              | some usM =>
                  simp only []
                  have hcap2 : ∀ x ∈ rest, x.canDispatch = true →
                      ∃ c ∈ x.mro, unitsExist c usM = true := by
                    intro x hx hcd
                    obtain ⟨c, hcm, hce⟩ :=
                      hcap x (List.mem_cons_of_mem _ hx) hcd
                    exact ⟨c, hcm, by
                      rw [unitsExist_of_caps
                        (tryCaps_caps inst us inst.mro false exist usM htc) c]
                      exact hce⟩
                  obtain ⟨r, hr⟩ := ih (i + 1) (nd + 1) usM hcap2
                  rw [hr]
                  exact ⟨(r.1, i :: r.2), rfl⟩
              | none =>
                  simp only []
                  by_cases hex : exist = true
                  · rw [if_pos hex]
                    exact ih (i + 1) nd us
                      (fun x hx => hcap x (List.mem_cons_of_mem _ hx))
                  · exfalso
                    have hcd : inst.canDispatch = true := by
                      simpa using hc
                    obtain ⟨c, hcm, hce⟩ :=
                      hcap inst (List.mem_cons_self _ _) hcd
                    have hnone :=
                      tryCaps_none_exist inst us inst.mro false exist htc
                    have hex2 : exist = false := by simpa using hex
                    rw [hex2] at hnone
                    have hany : inst.mro.any (fun c2 => unitsExist c2 us)
                        = false := by simpa using hnone.symm
                    rw [List.any_eq_false] at hany
                    exact hany c hcm hce

lemma dispatchSpec_error_no_capable (width : Nat) :
    ∀ (insts : List Instr) (i nd : Nat) (us : List ExecUnit) (e : String),
      dispatchSpec width insts i nd us = .error e →
      ∃ x ∈ insts, x.canDispatch = true ∧
        ∀ c ∈ x.mro, unitsExist c us = false := by
  intro insts
  induction insts with
  | nil => intro i nd us e h; rw [dispatchSpec] at h; cases h
  | cons inst rest ih =>
      intro i nd us e h
      rw [dispatchSpec] at h
      by_cases hw : (nd == width) = true
      · rw [if_pos hw] at h; cases h
      · rw [if_neg hw] at h
        by_cases hc : (!inst.canDispatch) = true
        · rw [if_pos hc] at h
          obtain ⟨x, hx, hxc, hxu⟩ := ih _ _ _ _ h
          exact ⟨x, List.mem_cons_of_mem _ hx, hxc, hxu⟩
        · rw [if_neg hc] at h
          cases htc : tryCaps inst us inst.mro false with
          | mk exist uso =>
              rw [htc] at h
              cases uso with
              | some usM =>
                  simp only [] at h
                  cases hds : dispatchSpec width rest (i + 1) (nd + 1) usM with
                  | error e2 =>
                      rw [hds] at h
                      obtain ⟨x, hx, hxc, hxu⟩ := ih _ _ _ _ hds
                      refine ⟨x, List.mem_cons_of_mem _ hx, hxc, ?_⟩
                      intro c hcm
                      rw [← unitsExist_of_caps
                        (tryCaps_caps inst us inst.mro false exist usM htc) c]
                      exact hxu c hcm
                  | ok p => rw [hds] at h; simp only [] at h; cases h
              | none =>
                  simp only [] at h
                  by_cases hex : exist = true
                  · rw [if_pos hex] at h
                    obtain ⟨x, hx, hxc, hxu⟩ := ih _ _ _ _ h
                    exact ⟨x, List.mem_cons_of_mem _ hx, hxc, hxu⟩
                  · refine ⟨inst, List.mem_cons_self _ _, by simpa using hc, ?_⟩
                    intro c hcm
                    have hnone :=
                      tryCaps_none_exist inst us inst.mro false exist htc
                    have hex2 : exist = false := by simpa using hex
                    rw [hex2] at hnone
                    have hany : inst.mro.any (fun c2 => unitsExist c2 us)
                        = false := by simpa using hnone.symm
                    rw [List.any_eq_false] at hany
                    simpa using hany c hcm

lemma feedFirstIdle_none_of_no_cap (c : Cap) (x : Instr) :
    ∀ us : List ExecUnit, unitsExist c us = false →
      feedFirstIdle c x us = none := by
  intro us
  induction us with
  | nil => intro h; rfl
  | cons u rest ih =>
      intro h
      simp only [unitsExist, List.any_cons, Bool.or_eq_false_iff] at h
      obtain ⟨h1, h2⟩ := h
      rw [feedFirstIdle, if_neg (by simp [h1]), ih h2]
      rfl

lemma tryCaps_none_of_uncovered (x : Instr) :
    ∀ (caps : List Cap) (us : List ExecUnit) (b : Bool),
      (∀ c ∈ caps, unitsExist c us = false) →
      tryCaps x us caps b = (b, none) := by
  intro caps
  induction caps with
  | nil => intro us b h; rfl
  | cons c cs ih =>
      intro us b h
      rw [tryCaps,
        feedFirstIdle_none_of_no_cap c x us (h c (List.mem_cons_self _ _)),
        h c (List.mem_cons_self _ _), Bool.or_false]
      exact ih us b (fun c2 hc2 => h c2 (List.mem_cons_of_mem _ hc2))

/-- When the scan reaches an all-operands-filled instruction `x` that no
registered unit covers and fewer than `width` dispatches can have happened
before it (fewer than `width` dispatchable instructions precede it), the
spec scan raises the no-capable-unit error. -/
lemma dispatchSpec_error_of_examined (width : Nat) :
    ∀ (pre post : List Instr) (x : Instr) (i nd : Nat) (us : List ExecUnit),
      x.canDispatch = true →
      (∀ c ∈ x.mro, unitsExist c us = false) →
      nd + pre.countP (fun y => y.canDispatch) < width →
      dispatchSpec width (pre ++ x :: post) i nd us
        = .error "Instruction has no ExecutionUnit" := by
  intro pre
  induction pre with
  | nil =>
      intro post x i nd us hx hunc hcut
      simp only [List.countP_nil, Nat.add_zero] at hcut
      rw [List.nil_append, dispatchSpec,
        if_neg (by simp only [beq_iff_eq]; omega),
        if_neg (by simp [hx]),
        tryCaps_none_of_uncovered x x.mro us false hunc]
      simp only []
      rw [if_neg (by simp)]
  | cons p pre2 ih =>
      intro post x i nd us hx hunc hcut
      have hnd : nd < width := by
        have := List.countP_cons (fun y => y.canDispatch) p pre2
        omega
      rw [List.cons_append, dispatchSpec,
        if_neg (by simp only [beq_iff_eq]; omega)]
      by_cases hpc : p.canDispatch = true
      · have hcut2 : (p :: pre2).countP (fun y => y.canDispatch)
            = pre2.countP (fun y => y.canDispatch) + 1 :=
          List.countP_cons_of_pos _ _ hpc
        rw [hcut2] at hcut
        rw [if_neg (by simp [hpc])]
        cases htc : tryCaps p us p.mro false with
        | mk exist uso =>
            cases uso with
            | some usM =>
                simp only []
                have huncM : ∀ c ∈ x.mro, unitsExist c usM = false := by
                  intro c hc
                  rw [unitsExist_of_caps
                    (tryCaps_caps p us p.mro false exist usM htc) c]
                  exact hunc c hc
                rw [ih post x (i + 1) (nd + 1) usM hx huncM (by omega)]
            | none =>
                simp only []
                by_cases hex : exist = true
                · rw [if_pos hex,
                    ih post x (i + 1) nd us hx hunc (by omega)]
                · rw [if_neg hex]
      · have hcut2 : (p :: pre2).countP (fun y => y.canDispatch)
            = pre2.countP (fun y => y.canDispatch) :=
          List.countP_cons_of_neg _ _ (by simp [hpc])
        rw [hcut2] at hcut
        rw [if_pos (by simp [Bool.not_eq_true] at hpc ⊢; exact hpc)]
        exact ih post x (i + 1) nd us hx hunc (by omega)

/-- C5 (amended).  Under the two-phase tick invariant: when a buffered
instruction `x` with all operands filled matches no registered execution
unit under any capability in its hierarchy and the scan examines it before
the width cutoff — fewer than `width` dispatchable instructions precede it
in the buffer — `operate()` fails with the no-capable-unit error;
conversely any error of `operate()` implies such an uncovered dispatchable
instruction is buffered; and when every dispatchable buffered instruction
has at least one registered unit under some capability, `operate()` raises
no error.  (An uncovered instruction positioned only after the width-th
dispatch is never examined and raises nothing; see the counterexample to
the unamended claim.) -/
theorem operate_no_capable_unit_error (s t : ReservationStation)
    (ext ext2 pre post : List Instr) (x : Instr)
    (h : s.future_buffer = s.current_buffer ++ ext)
    (hbuf : s.current_buffer = pre ++ x :: post)
    (hx : x.canDispatch = true)
    (hunc : ∀ c ∈ x.mro, unitsExist c s.execution_units = false)
    (hcut : pre.countP (fun y => y.canDispatch) < s.width)
    (ht : t.future_buffer = t.current_buffer ++ ext2)
    (hcov : ∀ y ∈ t.current_buffer, y.canDispatch = true →
        ∃ c ∈ y.mro, unitsExist c t.execution_units = true) :
    s.operate = .error "Instruction has no ExecutionUnit" ∧
    (∀ e, s.operate = .error e →
      ∃ y ∈ s.current_buffer, y.canDispatch = true ∧
        ∀ c ∈ y.mro, unitsExist c s.execution_units = false) ∧
    (∃ t2, t.operate = .ok t2) := by
  refine ⟨?_, ?_, ?_⟩
  · rw [operate_eq_spec s ext h, hbuf,
      dispatchSpec_error_of_examined s.width pre post x 0 0
        s.execution_units hx hunc (by omega)]
  · intro e he
    rw [operate_eq_spec s ext h] at he
    cases hds : dispatchSpec s.width s.current_buffer 0 0
        s.execution_units with
    | error e2 => exact dispatchSpec_error_no_capable _ _ _ _ _ _ hds
    | ok p =>
        rw [hds] at he
        simp only [] at he
        cases he
  · obtain ⟨r, hr⟩ := dispatchSpec_ok_of_capable t.width t.current_buffer 0 0
      t.execution_units hcov
    rw [operate_eq_spec t ext2 ht, hr]
    exact ⟨_, rfl⟩

/-- A dispatchable instruction that no registered unit can execute. -/
def iBad : Instr := { operands := [], mro := [7] }

/-- A dispatchable instruction the idle unit `u0` can execute. -/
def iGood : Instr := { operands := [], mro := [3, 0] }

/-- Width-1 station whose buffer holds `iGood` then `iBad`. -/
def rsC5 : ReservationStation :=
  { CAPACITY := 4, width := 1, execution_units := [u0],
    current_buffer := [iGood, iBad], future_buffer := [iGood, iBad] }

/-- Station `rsC5` after one `operate()`: `iGood` dispatched, no error raised. -/
def rsC5a : ReservationStation :=
  { CAPACITY := 4, width := 1,
    execution_units := [{ cap := 3, busy := true, log := [iGood] }],
    current_buffer := [iGood, iBad], future_buffer := [iBad] }

/-- Counterexample to C5 as stated: `iBad` is buffered with all operands
filled and matches no registered unit under any capability in its
hierarchy, yet `operate()` completes without error, because `iBad` sits
beyond the width cutoff (width 1, one earlier dispatch). -/
theorem operate_no_capable_unit_counterexample :
    iBad ∈ rsC5.current_buffer ∧ iBad.canDispatch = true ∧
    (∀ c ∈ iBad.mro, unitsExist c rsC5.execution_units = false) ∧
    rsC5.operate = .ok rsC5a := by decide

/-- Width-1 station whose only buffered instruction is the uncovered
`iBad`, examined first: here `operate()` really raises. -/
def rsErr : ReservationStation :=
  { CAPACITY := 4, width := 1, execution_units := [u0],
    current_buffer := [iBad], future_buffer := [iBad] }

/-- Closed witness for `operate_no_capable_unit_error`: at `rsErr` the
uncovered `iBad` is examined first and `operate()` does raise the
no-capable-unit error (making the error-implies-uncovered conjunct bite on
a real error), while at the fully covered `rs0` the scan completes. -/
theorem operate_no_capable_unit_error_witness :
    rsErr.operate = .error "Instruction has no ExecutionUnit" ∧
    (∀ e, rsErr.operate = .error e →
      ∃ y ∈ rsErr.current_buffer, y.canDispatch = true ∧
        ∀ c ∈ y.mro, unitsExist c rsErr.execution_units = false) ∧
    (∃ t2, rs0.operate = .ok t2) :=
  operate_no_capable_unit_error rsErr rs0 [] [] [] [] iBad (by decide)
    (by decide) (by decide) (by decide) (by decide) (by decide) (by decide)

lemma feedFirstIdle_log (c : Cap) (x : Instr) :
    ∀ us us2, feedFirstIdle c x us = some us2 →
      ∀ y u2, u2 ∈ us2 → y ∈ u2.log →
        (∃ u ∈ us, y ∈ u.log) ∨ y = x := by
  intro us
  induction us with
  | nil => intro us2 h; simp [feedFirstIdle] at h
  | cons u rest ih =>
      intro us2 h y u2 hu2 hy
      rw [feedFirstIdle] at h
      split at h
      · cases h
        rcases List.mem_cons.mp hu2 with rfl | hmem
        · rcases (by simpa [ExecUnit.feed] using hy : y ∈ u.log ∨ y = x)
            with hin | hx
          · exact Or.inl ⟨u, List.mem_cons_self _ _, hin⟩
          · exact Or.inr hx
        · exact Or.inl ⟨u2, List.mem_cons_of_mem _ hmem, hy⟩
      · cases hrec : feedFirstIdle c x rest with
        | none => rw [hrec] at h; simp at h
        | some l =>
            rw [hrec] at h
            have h2 : some (u :: l) = some us2 := h
            cases h2
            rcases List.mem_cons.mp hu2 with rfl | hmem
            · exact Or.inl ⟨u2, List.mem_cons_self _ _, hy⟩
            · rcases ih l hrec y u2 hmem hy with ⟨u3, hu3, hy3⟩ | hx
              · exact Or.inl ⟨u3, List.mem_cons_of_mem _ hu3, hy3⟩
              · exact Or.inr hx

lemma tryCaps_log (x : Instr) (us : List ExecUnit) :
    ∀ caps b e us2, tryCaps x us caps b = (e, some us2) →
      ∀ y u2, u2 ∈ us2 → y ∈ u2.log →
        (∃ u ∈ us, y ∈ u.log) ∨ y = x := by
  intro caps
  induction caps with
  | nil => intro b e us2 h; simp [tryCaps] at h
  | cons c cs ih =>
      intro b e us2 h
      rw [tryCaps] at h
      cases hf : feedFirstIdle c x us with
      | some l =>
          rw [hf] at h
          cases h
          exact feedFirstIdle_log c x us us2 hf
      | none =>
          rw [hf] at h
          exact ih _ _ _ h

lemma dispatchSpec_log (width : Nat) :
    ∀ (insts : List Instr) (i nd : Nat) us usF idxs,
      dispatchSpec width insts i nd us = .ok (usF, idxs) →
      ∀ y u2, u2 ∈ usF → y ∈ u2.log →
        (∃ u ∈ us, y ∈ u.log) ∨ y ∈ insts := by
  intro insts
  induction insts with
  | nil =>
      intro i nd us usF idxs h y u2 hu2 hy
      rw [dispatchSpec] at h
      cases h
      exact Or.inl ⟨u2, hu2, hy⟩
  | cons inst rest ih =>
      intro i nd us usF idxs h y u2 hu2 hy
      rw [dispatchSpec] at h
      by_cases hw : (nd == width) = true
      · rw [if_pos hw] at h
        cases h
        exact Or.inl ⟨u2, hu2, hy⟩
      · rw [if_neg hw] at h
        by_cases hc : (!inst.canDispatch) = true
        · rw [if_pos hc] at h
          rcases ih _ _ _ _ _ h y u2 hu2 hy with hl | hr
          · exact Or.inl hl
          · exact Or.inr (List.mem_cons_of_mem _ hr)
        · rw [if_neg hc] at h
          cases htc : tryCaps inst us inst.mro false with
          | mk exist uso =>
              rw [htc] at h
              cases uso with
              | some usM =>
                  simp only [] at h
                  cases hds : dispatchSpec width rest (i + 1) (nd + 1) usM with
                  | error e => rw [hds] at h; cases h
                  | ok p =>
                      rw [hds] at h
                      simp only [] at h
                      cases h
                      rcases ih _ _ _ _ _ hds y u2 hu2 hy with ⟨u3, hu3, hy3⟩ | hr
                      · rcases tryCaps_log inst us inst.mro false exist usM htc
                            y u3 hu3 hy3 with hl2 | hx
                        · exact Or.inl hl2
                        · exact Or.inr (hx ▸ List.mem_cons_self _ _)
                      · exact Or.inr (List.mem_cons_of_mem _ hr)
              | none =>
                  simp only [] at h
                  by_cases hex : exist = true
                  · rw [if_pos hex] at h
                    rcases ih _ _ _ _ _ h y u2 hu2 hy with hl | hr
                    · exact Or.inl hl
                    · exact Or.inr (List.mem_cons_of_mem _ hr)
                  · rw [if_neg hex] at h
                    cases h

/-- C8.  An instruction fed during a cycle is staged into the future buffer
only (the current buffer is untouched), is not fed into any execution unit
by the same cycle's `operate()`, survives `operate()` in the future buffer,
and becomes part of the current buffer — hence dispatchable — only after
the next `trigger()`. -/
theorem fed_instruction_waits_one_cycle (s s1 s2 : ReservationStation)
    (x : Instr) (ext : List Instr)
    (h : s.future_buffer = s.current_buffer ++ ext)
    (hfresh : x ∉ s.current_buffer)
    (hlog : ∀ u ∈ s.execution_units, x ∉ u.log)
    (hfeed : s.feed x = .ok s1)
    (hop : s1.operate = .ok s2) :
    s1.current_buffer = s.current_buffer ∧
    s1.future_buffer = s.future_buffer ++ [x] ∧
    (∀ u ∈ s2.execution_units, x ∉ u.log) ∧
    x ∈ s2.future_buffer ∧
    x ∈ (s2.trigger).current_buffer := by
  rw [ReservationStation.feed] at hfeed
  split at hfeed
  · cases hfeed
    refine ⟨rfl, rfl, ?_, ?_, ?_⟩
    · have h1 : ({ s with future_buffer := s.future_buffer ++ [x] }
            : ReservationStation).future_buffer
          = ({ s with future_buffer := s.future_buffer ++ [x] }
            : ReservationStation).current_buffer ++ (ext ++ [x]) := by
        simp [h]
      rw [operate_eq_spec _ (ext ++ [x]) h1] at hop
      cases hds : dispatchSpec s.width s.current_buffer 0 0
          s.execution_units with
      | error e => rw [hds] at hop; cases hop
      | ok p =>
          rw [hds] at hop
          simp only [] at hop
          cases hop
          intro u hu hxin
          rcases dispatchSpec_log s.width s.current_buffer 0 0
              s.execution_units p.1 p.2 (by rw [hds]) x u hu hxin with
            ⟨u3, hu3, hy3⟩ | hr
          · exact hlog u3 hu3 hy3
          · exact hfresh hr
    · have h1 : ({ s with future_buffer := s.future_buffer ++ [x] }
            : ReservationStation).future_buffer
          = ({ s with future_buffer := s.future_buffer ++ [x] }
            : ReservationStation).current_buffer ++ (ext ++ [x]) := by
        simp [h]
      rw [operate_eq_spec _ (ext ++ [x]) h1] at hop
      cases hds : dispatchSpec s.width s.current_buffer 0 0
          s.execution_units with
      | error e => rw [hds] at hop; cases hop
      | ok p =>
          rw [hds] at hop
          simp only [] at hop
          cases hop
          simp
    · have h1 : ({ s with future_buffer := s.future_buffer ++ [x] }
            : ReservationStation).future_buffer
          = ({ s with future_buffer := s.future_buffer ++ [x] }
            : ReservationStation).current_buffer ++ (ext ++ [x]) := by
        simp [h]
      rw [operate_eq_spec _ (ext ++ [x]) h1] at hop
      cases hds : dispatchSpec s.width s.current_buffer 0 0
          s.execution_units with
      | error e => rw [hds] at hop; cases hop
      | ok p =>
          rw [hds] at hop
          simp only [] at hop
          cases hop
          simp [ReservationStation.trigger]
  · cases hfeed

/-- The C8 witness station before the feed. -/
def rsW8 : ReservationStation :=
  { CAPACITY := 2, width := 1, execution_units := [u0],
    current_buffer := [J0], future_buffer := [J0] }

/-- A fresh instruction fed into `rsW8` during the cycle. -/
def xF : Instr := { operands := [Operand.pending 1], mro := [5] }

/-- Station `rsW8` after feeding `xF`. -/
def rsW8a : ReservationStation :=
  { CAPACITY := 2, width := 1, execution_units := [u0],
    current_buffer := [J0], future_buffer := [J0, xF] }

/-- Station `rsW8a` after `operate()`: `J0` dispatched, `xF` still staged. -/
def rsW8b : ReservationStation :=
  { CAPACITY := 2, width := 1,
    execution_units := [{ cap := 3, busy := true, log := [J0] }],
    current_buffer := [J0], future_buffer := [xF] }

/-- Closed witness for `fed_instruction_waits_one_cycle` at the concrete
station `rsW8`. -/
theorem fed_instruction_waits_one_cycle_witness :
    rsW8a.current_buffer = rsW8.current_buffer ∧
    rsW8a.future_buffer = rsW8.future_buffer ++ [xF] ∧
    (∀ u ∈ rsW8b.execution_units, xF ∉ u.log) ∧
    xF ∈ rsW8b.future_buffer ∧
    xF ∈ (rsW8b.trigger).current_buffer :=
  fed_instruction_waits_one_cycle rsW8 rsW8a rsW8b xF [] (by decide)
    (by decide) (by decide) (by decide) (by decide)

/-- C9.  Decoding a dictionary whose mnemonic (the first space-separated
field of `instruction_str`) is none of the ten recognised mnemonics yields
the parse error; decoding a well-formed dictionary (a recognised mnemonic
with operand fields of the listed shape) succeeds and yields the
instruction of the corresponding constructor. -/
theorem decode_unknown_and_wellformed (d d2 : InstrDict)
    (hu : (pySplit d.instruction_str).headD "" ∉ recognizedMnemonics)
    (hw : WellFormedDict d2) :
    decodeStr d = .error "unknown instruction" ∧
    (∃ ins, decodeStr d2 = .ok ins ∧
      ins.mnemonic = (pySplit d2.instruction_str).headD "") := by
  constructor
  · simp only [recognizedMnemonics, List.mem_cons, List.not_mem_nil, or_false,
      not_or] at hu
    obtain ⟨h1, h2, h3, h4, h5, h6, h7, h8, h9, h10⟩ := hu
    unfold decodeStr
    simp only [if_neg h1, if_neg h2, if_neg h3, if_neg h4, if_neg h5,
      if_neg h6, if_neg h7, if_neg h8, if_neg h9, if_neg h10]
  · cases hw with
    | add rd r1 r2 h =>
        refine ⟨.Add rd r1 r2, ?_, by simp [FrontIns.mnemonic, h]⟩
        unfold decodeStr
        rw [h]
        simp
    | addi rd r1 t h hn =>
        obtain ⟨n, hn2⟩ := Option.isSome_iff_exists.mp hn
        refine ⟨.AddI rd r1 n, ?_, by simp [FrontIns.mnemonic, h]⟩
        unfold decodeStr
        rw [h]
        simp [hn2]
    | sub rd r1 r2 h =>
        refine ⟨.Sub rd r1 r2, ?_, by simp [FrontIns.mnemonic, h]⟩
        unfold decodeStr
        rw [h]
        simp
    | subi rd r1 t h hn =>
        obtain ⟨n, hn2⟩ := Option.isSome_iff_exists.mp hn
        refine ⟨.SubI rd r1 n, ?_, by simp [FrontIns.mnemonic, h]⟩
        unfold decodeStr
        rw [h]
        simp [hn2]
    | mul rd r1 r2 h =>
        refine ⟨.Mul rd r1 r2, ?_, by simp [FrontIns.mnemonic, h]⟩
        unfold decodeStr
        rw [h]
        simp
    | muli rd r1 t h hn =>
        obtain ⟨n, hn2⟩ := Option.isSome_iff_exists.mp hn
        refine ⟨.MulI rd r1 n, ?_, by simp [FrontIns.mnemonic, h]⟩
        unfold decodeStr
        rw [h]
        simp [hn2]
    | ldr rd r1 h =>
        refine ⟨.Load rd r1, ?_, by simp [FrontIns.mnemonic, h]⟩
        unfold decodeStr
        rw [h]
        simp
    | str r1 r2 h =>
        refine ⟨.Store r1 r2, ?_, by simp [FrontIns.mnemonic, h]⟩
        unfold decodeStr
        rw [h]
        simp
    | j t h hn =>
        obtain ⟨n, hn2⟩ := Option.isSome_iff_exists.mp hn
        refine ⟨.Jump n, ?_, by simp [FrontIns.mnemonic, h]⟩
        unfold decodeStr
        rw [h]
        simp [hn2]
    | blth r1 r2 t h hn hb =>
        obtain ⟨n, hn2⟩ := Option.isSome_iff_exists.mp hn
        obtain ⟨bi, hb2⟩ := Option.isSome_iff_exists.mp hb
        refine ⟨.Blth r1 r2 n bi, ?_, by simp [FrontIns.mnemonic, h]⟩
        unfold decodeStr
        rw [h, hb2]
        simp [hn2]

/-- A dictionary with an unrecognised mnemonic. -/
def dBad : InstrDict := { instruction_str := "nop r1", branch_info := none }

/-- Closed witness for `decode_unknown_and_wellformed`: `nop r1` raises the
parse error while `add r1 r2 r3` decodes into an `Add`. -/
theorem decode_unknown_and_wellformed_witness :
    decodeStr dBad = .error "unknown instruction" ∧
    (∃ ins, decodeStr d0 = .ok ins ∧
      ins.mnemonic = (pySplit d0.instruction_str).headD "") :=
  decode_unknown_and_wellformed dBad d0 (by decide)
    (WellFormedDict.add d0 "r1" "r2" "r3" (by decide))

/-- C10.  When Decode holds an instruction with expired timer in a cycle
where the downstream ReservationStation is full, the Decode `tick()`
(`compTick` on the `dec` component) feeds nothing to the station, raises no
error, and empties the Decode stage: the held dictionary is gone from the
component state (and so can never be fed later), and Decode reports
not-full. -/
theorem decode_discards_on_full (w : World) (d : InstrDict)
    (h1 : w.dec.current_inst = some d) (h2 : w.dec.current_timer = 0)
    (h3 : w.rs.full = true) (h4 : w.dec.future_inst = none) :
    compTick w Comp.dec = .ok
      { dec := { DELAY := w.dec.DELAY, current_inst := none,
                 current_timer := w.dec.future_timer,
                 future_inst := none, future_timer := 0 },
        rs := w.rs } ∧
    Decode.full { DELAY := w.dec.DELAY, current_inst := none,
                  current_timer := w.dec.future_timer,
                  future_inst := none, future_timer := 0 } = false := by
  constructor
  · simp only [compTick, Decode.operate, h1, h2, h3, Bool.not_true,
      Bool.and_false, if_false]
    simp only [Decode.trigger, h4, Option.isNone_none, Bool.true_or, if_pos]
    rfl
  · simp [Decode.full]

/-- A full capacity-1 station for the C10 witness. -/
def rsFull : ReservationStation :=
  { CAPACITY := 1, width := 1, execution_units := [],
    current_buffer := [], future_buffer := [J0] }

/-- The C10 witness world: Decode holds `d0` ready, station full. -/
def w10 : World := { dec := dec0, rs := rsFull }

/-- Closed witness for `decode_discards_on_full` at the world `w10`. -/
theorem decode_discards_on_full_witness :
    compTick w10 Comp.dec = .ok
      { dec := { DELAY := w10.dec.DELAY, current_inst := none,
                 current_timer := w10.dec.future_timer,
                 future_inst := none, future_timer := 0 },
        rs := w10.rs } ∧
    Decode.full { DELAY := w10.dec.DELAY, current_inst := none,
                  current_timer := w10.dec.future_timer,
                  future_inst := none, future_timer := 0 } = false :=
  decode_discards_on_full w10 d0 (by decide) (by decide) (by decide)
    (by decide)

/-- C1 fails on the code: in the world `w0` (a Decode stage holding a
ready instruction and a full width-1 ReservationStation about to dispatch),
both tick orders of `Clock.tick` complete, yet they leave observably
different states — ticking Decode first discards the held instruction
because `Decode.operate` reads the station's pre-trigger future buffer via
`full()`, while ticking the station first frees a slot that Decode then
fills.  `operate()` is thus order dependent, contradicting the documented
arbitrary-order contract of `Clock.tick`. -/
theorem clock_order_dependence :
    (clockTick [Comp.dec, Comp.rs] w0).isOk = true ∧
    (clockTick [Comp.rs, Comp.dec] w0).isOk = true ∧
    clockTick [Comp.dec, Comp.rs] w0 ≠ clockTick [Comp.rs, Comp.dec] w0 := by
  decide

end ProcSim
